import Mathlib

/-!
Verification of the lab2 collision-search engine (birthday attack and
Pollard-rho-style attack on a truncated SHA-256 digest).

The Go sources embedded here are src/lab2/myattacks/commons.go,
src/lab2/myattacks/pollard_attack.go, src/lab2/myattacks/birthday_attack.go
and their duplicates in src/lab2/main.go.  Go strings (which here always
hold ASCII bit-strings or hex strings) are modelled as lists of
characters; Go byte slices as lists of naturals below 256; Go
machine integers as naturals (all the quantities involved are
non-negative in every reachable state of the source).  Library calls
from the Go standard library (crypto/sha256, math/big, encoding/hex,
crypto/rand) are not repository code; they are modelled concretely
below, faithfully to their documented behavior: SHA-256 is implemented
in full, and the randomness source is an explicit oracle parameter.
-/

namespace Crypto

/-- Go strings restricted to ASCII, as used throughout the engine. -/
abbrev Str := List Char

/-- Convert a Lean string literal to the list-of-characters model. -/
def strL (s : String) : Str := s.data

/-- Go byte slices: lists of naturals; every produced element is below 256. -/
abbrev Bytes := List Nat

/-! ## SHA-256 (model of the crypto/sha256 library call)

A complete implementation of FIPS 180-4 SHA-256 over byte lists, using
naturals reduced mod 2^32 at every step, so that terms evaluate inside
the kernel. -/

/-- Reduce a natural to a 32-bit word. -/
def u32 (x : Nat) : Nat := x % 4294967296

/-- Right rotation of a 32-bit word. -/
def rotr (n x : Nat) : Nat := u32 ((x >>> n) ||| (x <<< (32 - n)))

/-- SHA-256 round constants (decimal renderings of the 32-bit words). -/
def sha256K : List Nat :=
  [1116352408, 1899447441, 3049323471, 3921009573, 961987163, 1508970993,
   2453635748, 2870763221, 3624381080, 310598401, 607225278, 1426881987,
   1925078388, 2162078206, 2614888103, 3248222580, 3835390401, 4022224774,
   264347078, 604807628, 770255983, 1249150122, 1555081692, 1996064986,
   2554220882, 2821834349, 2952996808, 3210313671, 3336571891, 3584528711,
   113926993, 338241895, 666307205, 773529912, 1294757372, 1396182291,
   1695183700, 1986661051, 2177026350, 2456956037, 2730485921, 2820302411,
   3259730800, 3345764771, 3516065817, 3600352804, 4094571909, 275423344,
   430227734, 506948616, 659060556, 883997877, 958139571, 1322822218,
   1537002063, 1747873779, 1955562222, 2024104815, 2227730452, 2361852424,
   2428436474, 2756734187, 3204031479, 3329325298]

/-- SHA-256 initial hash state (decimal renderings of the 32-bit words). -/
def sha256H0 : List Nat :=
  [1779033703, 3144134277, 1013904242, 2773480762, 1359893119, 2600822924, 528734635, 1541459225]

/-- 64-bit big-endian rendering of a natural (the message bit length). -/
def toBE64 (n : Nat) : Bytes :=
  [(n >>> 56) % 256, (n >>> 48) % 256, (n >>> 40) % 256, (n >>> 32) % 256,
   (n >>> 24) % 256, (n >>> 16) % 256, (n >>> 8) % 256, n % 256]

/-- FIPS 180-4 padding: append 0x80, zero bytes to 56 mod 64, then the
bit length as 64-bit big-endian. -/
def padMsg (m : Bytes) : Bytes :=
  let L := m.length
  let zeros := (64 + 55 - (L + 1 - 1) % 64) % 64
  m ++ [0x80] ++ List.replicate zeros 0 ++ toBE64 (8 * L)

/-- Big-endian 32-bit words of a 64-byte block. -/
def blockWords (b : Bytes) : List Nat :=
  (List.range 16).map fun i =>
    (b.getD (4 * i) 0) <<< 24 ||| (b.getD (4 * i + 1) 0) <<< 16 |||
    (b.getD (4 * i + 2) 0) <<< 8 ||| b.getD (4 * i + 3) 0

/-- Message-schedule extension from 16 to 64 words. -/
def schedule (w : List Nat) : List Nat :=
  (List.range 48).foldl
    (fun acc i =>
      let s0 := rotr 7 (acc.getD (i + 1) 0) ^^^ rotr 18 (acc.getD (i + 1) 0) ^^^
        (acc.getD (i + 1) 0) >>> 3
      let s1 := rotr 17 (acc.getD (i + 14) 0) ^^^ rotr 19 (acc.getD (i + 14) 0) ^^^
        (acc.getD (i + 14) 0) >>> 10
      acc ++ [u32 (acc.getD i 0 + s0 + acc.getD (i + 9) 0 + s1)])
    w

/-- One round of the SHA-256 compression function. -/
def compressRound (st : Nat × Nat × Nat × Nat × Nat × Nat × Nat × Nat) (kw : Nat × Nat) :
    Nat × Nat × Nat × Nat × Nat × Nat × Nat × Nat :=
  match st with
  | (a, b, c, d, e, f, g, h) =>
    let S1 := rotr 6 e ^^^ rotr 11 e ^^^ rotr 25 e
    let ch := (e &&& f) ^^^ ((4294967295 - e) &&& g)
    let t1 := u32 (h + S1 + ch + kw.1 + kw.2)
    let S0 := rotr 2 a ^^^ rotr 13 a ^^^ rotr 22 a
    let maj := (a &&& b) ^^^ (a &&& c) ^^^ (b &&& c)
    let t2 := u32 (S0 + maj)
    (u32 (t1 + t2), a, b, c, u32 (d + t1), e, f, g)

/-- Compress one 64-byte block into the running hash state. -/
def compressBlock (H : List Nat) (b : Bytes) : List Nat :=
  let w := schedule (blockWords b)
  let init : Nat × Nat × Nat × Nat × Nat × Nat × Nat × Nat :=
    (H.getD 0 0, H.getD 1 0, H.getD 2 0, H.getD 3 0, H.getD 4 0, H.getD 5 0, H.getD 6 0, H.getD 7 0)
  match (sha256K.zip w).foldl compressRound init with
  | (a, b, c, d, e, f, g, h) =>
    [u32 (H.getD 0 0 + a), u32 (H.getD 1 0 + b), u32 (H.getD 2 0 + c), u32 (H.getD 3 0 + d),
     u32 (H.getD 4 0 + e), u32 (H.getD 5 0 + f), u32 (H.getD 6 0 + g), u32 (H.getD 7 0 + h)]

/-- Process the padded message 64 bytes at a time (fuel is the block count). -/
def sha256Blocks : Nat → List Nat → Bytes → List Nat
  | 0, H, _ => H
  | fuel + 1, H, m => sha256Blocks fuel (compressBlock H (m.take 64)) (m.drop 64)

/-- SHA-256 digest of a byte list, read as one big-endian natural, exactly
like big.Int SetBytes applied to the 32 digest bytes in the Go source. -/
def sha256Nat (m : Bytes) : Nat :=
  let p := padMsg m
  (sha256Blocks (p.length / 64) sha256H0 p).foldl (fun acc wd => acc * 4294967296 + wd) 0

/-! ## Rendering naturals as binary and hex strings (fmt.Sprintf model) -/

/-- Digits of a positive natural in the given base, most significant first
(fuel-driven so that it evaluates in the kernel; fuel n suffices for n). -/
def digitsRep (base : Nat) : Nat → Nat → Str
  | 0, _ => []
  | fuel + 1, n =>
    if n = 0 then []
    else
      digitsRep base fuel (n / base) ++
        [if n % base < 10 then Char.ofNat (48 + n % base) else Char.ofNat (87 + n % base)]

/-- Minimal binary rendering of a natural, as Go fmt with verb b: "0" for zero. -/
def natToBin (n : Nat) : Str := if n = 0 then ['0'] else digitsRep 2 n n

/-- Zero-padded binary rendering of width w, as Go fmt with verb 0*b. -/
def binPad (w n : Nat) : Str := List.replicate (w - (natToBin n).length) '0' ++ natToBin n

/-- Minimal lowercase hex rendering of a natural, as Go fmt with verb x. -/
def natToHex (n : Nat) : Str := if n = 0 then ['0'] else digitsRep 16 n n

/-! ## Parsing and hex codecs (models of math/big SetString and encoding/hex) -/

/-- Is the character a binary digit. -/
def isBit (c : Char) : Bool := c == '0' || c == '1'

/-- Numeric value of a string of binary digits. -/
def binVal (s : Str) : Nat := s.foldl (fun a c => 2 * a + (if c = '1' then 1 else 0)) 0

/-- The digit part accepted by math/big Int.SetString in base 2: a
non-empty run of binary digits consuming the whole string. -/
def binDigits? (s : Str) : Option Nat :=
  if s ≠ [] ∧ s.all isBit then some (binVal s) else none

/-- Model of math/big Int.SetString with base 2: an optional leading sign
followed by a non-empty run of binary digits (with a fixed base no
prefixes and no underscores are accepted).  Returns the sign and the
magnitude; a magnitude of zero is never negative (big.Int normalizes). -/
def bigSetString2 (s : Str) : Option (Bool × Nat) :=
  match s with
  | [] => none
  | c :: rest =>
    if c = '+' then (binDigits? rest).map (fun n => (false, n))
    else if c = '-' then (binDigits? rest).map (fun n => (decide (n ≠ 0), n))
    else (binDigits? (c :: rest)).map (fun n => (false, n))

/-- Lowercase hex value of a character, as accepted by hex.DecodeString. -/
def hexDigitVal (c : Char) : Option Nat :=
  if '0' ≤ c ∧ c ≤ '9' then some (c.toNat - 48)
  else if 'a' ≤ c ∧ c ≤ 'f' then some (c.toNat - 87)
  else if 'A' ≤ c ∧ c ≤ 'F' then some (c.toNat - 55)
  else none

/-- Model of hex.DecodeString: pairs of hex digits to bytes, failing on an
odd length or a non-hex character. -/
def hexDecode : Str → Except Str Bytes
  | [] => .ok []
  | [_] => .error (strL "encoding/hex: odd length hex string")
  | c1 :: c2 :: rest =>
    match hexDigitVal c1, hexDigitVal c2 with
    | some h, some l =>
      match hexDecode rest with
      | .ok bs => .ok ((16 * h + l) :: bs)
      | .error e => .error e
    | _, _ => .error (strL "encoding/hex: invalid byte")

/-- Model of hex.EncodeToString: two lowercase digits per byte. -/
def hexEncode (bs : Bytes) : Str :=
  bs.foldr (fun b acc =>
    (if b / 16 < 10 then Char.ofNat (48 + b / 16) else Char.ofNat (87 + b / 16)) ::
    (if b % 16 < 10 then Char.ofNat (48 + b % 16) else Char.ofNat (87 + b % 16)) :: acc) []

/-! ## commons.go -/

/-- Constant MinOut from commons.go. -/
def MinOut : Nat := 8
/-- Constant MaxOut from commons.go. -/
def MaxOut : Nat := 24
/-- Constant MsgLen from commons.go. -/
def MsgLen : Nat := 6

/-- Collision from commons.go: a pair of messages with the same digest. -/
structure Collision where
  X : Str
  Y : Str
deriving DecidableEq, Repr

/-- Chain from commons.go: seed, current value, step count, worker id. -/
structure Chain where
  seed : Str
  val : Str
  steps : Nat
  WID : Nat
deriving DecidableEq, Repr, Inhabited

/-- SHA_xx from commons.go: reject outbits outside [MinOut, MaxOut],
otherwise mask the low outbits bits of the SHA-256 digest and render them
as a zero-padded binary string of width outbits. -/
def SHA_xx (msg : Bytes) (outbits : Nat) : Except Str Str :=
  if outbits < MinOut ∨ outbits > MaxOut then .error (strL "Invalid out vector size")
  else .ok (binPad outbits (sha256Nat msg &&& (2 ^ outbits - 1)))

/-- containColl from commons.go: linear scan testing the pair in both
orientations. -/
def containColl (arr : List Collision) (data : Collision) : Bool :=
  arr.any fun v => (v.X == data.X && v.Y == data.Y) || (v.X == data.Y && v.Y == data.X)

/-- BinToHex from commons.go (binToHex in pollard_attack.go is the same
code): big.Int SetString in base 2, then fmt rendering with verb x, which
prints the minimal lowercase hex of the magnitude with a leading minus
sign for negative values. -/
def BinToHex (binStr : Str) : Except Str Str :=
  match bigSetString2 binStr with
  | none => .error (strL "invalid binary string")
  | some (neg, n) => .ok ((if neg then ['-'] else []) ++ natToHex n)

/-! ## pollard_attack.go -/

/-- isDistinguished from pollard_attack.go: at least distinguishedBits
characters and the leading distinguishedBits characters all zero. -/
def isDistinguished (s : Str) (distinguishedBits : Nat) : Bool :=
  if s.length < distinguishedBits then false
  else (s.take distinguishedBits).all (· == '0')

/-- P from pollard_attack.go: append the constant suffix 0000. -/
def P (x : Str) : Str := x ++ ['0', '0', '0', '0']

/-- Go multiple-return convention: the string result that accompanies an
error is the empty string, and call sites that discard the error keep it. -/
def exVal : Except Str Str → Str
  | .ok s => s
  | .error _ => []

/-- Go multiple-return convention for byte-slice results: nil on error. -/
def exBytes : Except Str Bytes → Bytes
  | .ok b => b
  | .error _ => []

/-- binToBytes from pollard_attack.go: reject non-binary characters,
convert through binToHex (whose error is discarded, leaving an empty hex
string), left-pad the hex string to even length, then hex-decode. -/
def binToBytes (binStr : Str) : Except Str Bytes :=
  if binStr.all isBit then
    let hexStr := exVal (BinToHex binStr)
    let hexStr := if hexStr.length % 2 ≠ 0 then '0' :: hexStr else hexStr
    hexDecode hexStr
  else .error (strL "binary string contains invalid characters")

/-- chainFunc from pollard_attack.go: byte-encode the state (discarding
the binToBytes error), hash with SHA_xx, apply P, and return the appended
string whole — the source comments say the last outBits characters are
taken, but the code performs no such truncation. -/
def chainFunc (x : Str) (outBits : Nat) : Except Str Str :=
  let xb := exBytes (binToBytes x)
  match SHA_xx xb outBits with
  | .error e => .error e
  | .ok hash =>
    let appended := P hash
    if appended.length < outBits then .error (strL "chainFunc: result length too short")
    else .ok appended

/-- The chain-step map as a plain function (the ok payload; the empty
string in the error case, matching the Go zero value). -/
def chainPure (outBits : Nat) (x : Str) : Str := exVal (chainFunc x outBits)

/-- The delta phase of findExactCollision: walk the first seed forward,
checking the error after every step as the source does. -/
def chainN (outBits : Nat) : Nat → Str → Except Str Str
  | 0, v => .ok v
  | n + 1, v =>
    match chainFunc v outBits with
    | .error e => .error e
    | .ok v2 => chainN outBits n v2

/-- The synchronized phase of findExactCollision: record the pair, step
both values (the error of the first step is overwritten by the second,
exactly as in the source), and stop when the stepped values agree. -/
def syncLoop (outBits : Nat) : Nat → Str → Str → Except Str Collision
  | 0, _, _ => .error (strL "exact collision not found")
  | fuel + 1, valA, valB =>
    let collision : Collision := ⟨valA, valB⟩
    let a2 := exVal (chainFunc valA outBits)
    match chainFunc valB outBits with
    | .error e => .error e
    | .ok b2 => if a2 == b2 then .ok collision else syncLoop outBits fuel a2 b2

/-- findExactCollision from pollard_attack.go: advance seedA by delta
steps, then run the synchronized loop with the 10e6 iteration cap. -/
def findExactCollision (seedA seedB : Str) (delta outBits : Nat) : Except Str Collision :=
  match chainN outBits delta seedA with
  | .error e => .error e
  | .ok valA => syncLoop outBits 10000000 valA seedB

/-! ## PollardAttack from pollard_attack.go

The crypto/rand source is modelled as an oracle giving the value drawn
by rand.Int at each call (reduced mod 2^outBits, since rand.Int draws
uniformly below that bound); randomState renders it with fmt verb 0*b
exactly as the source does.  The Go map of distinguished points is an
association list; Go map semantics (unique keys, value copied on store)
are reflected by the operations below.  The unbounded outer for loop is
given explicit fuel; the number-of-iterations, memory-estimate and
wall-clock return values play no part in any claim and are omitted. -/

/-- Parameters of one PollardAttack call, with the randomness oracle. -/
structure PParams where
  outBits : Nat
  distBits : Nat
  numColls : Nat
  numWorkers : Nat
  oracle : Nat → Nat

/-- The mutable state of the PollardAttack loop: the chain array, the
distinguished-point map, the collision list, the iteration counter, and
the number of random draws consumed so far. -/
structure PState where
  chains : List Chain
  dists : List (Str × Chain)
  collisions : List Collision
  iterations : Nat
  ridx : Nat
deriving Repr

/-- randomState from pollard_attack.go applied to the draw at index i. -/
def seedAt (p : PParams) (i : Nat) : Str := binPad p.outBits (p.oracle i % 2 ^ p.outBits)

/-- Go map lookup. -/
def mapLookup (m : List (Str × Chain)) (k : Str) : Option Chain :=
  (m.find? (fun kv => kv.1 == k)).map (fun kv => kv.2)

/-- Go map store: replace the binding if the key is present, else add it. -/
def mapSet (m : List (Str × Chain)) (k : Str) (v : Chain) : List (Str × Chain) :=
  if m.any (fun kv => kv.1 == k) then m.map (fun kv => if kv.1 == k then (k, v) else kv)
  else m ++ [(k, v)]

/-- The role assignment before reconciliation: the registry chain is the
longer one on ties, as in the source comparison val.steps >= chains[i].steps. -/
def orderChains (val cur : Chain) : Chain × Chain :=
  if cur.steps ≤ val.steps then (val, cur) else (cur, val)

/-- The reset closure from PollardAttack: store a freshly seeded chain at
the given slot, consuming one random draw. -/
def resetChain (p : PParams) (chains : List Chain) (id ridx : Nat) : List Chain × Nat :=
  let seed := seedAt p ridx
  (chains.set id ⟨seed, seed, 0, id⟩, ridx + 1)

/-- The body of the inner worker loop of PollardAttack for one chain
index: step the chain (a chainFunc error is skipped with continue), test
isDistinguished, and on a registry hit reconcile, deduplicate, evict the
registry entries of both merged chains and reseed them; on a miss insert
the distinguished point. -/
def processChain (p : PParams) (st : PState) (i : Nat) : Except Str PState :=
  let c := st.chains.getD i default
  match chainFunc c.val p.outBits with
  | .error _ => .ok st
  | .ok next =>
    let c2 : Chain := ⟨c.seed, next, c.steps + 1, c.WID⟩
    let chains2 := st.chains.set i c2
    if isDistinguished next p.distBits then
      match mapLookup st.dists next with
      | some val =>
        let pair := orderChains val c2
        let delta := pair.1.steps - pair.2.steps
        match findExactCollision pair.1.seed pair.2.seed delta p.outBits with
        | .error e => .error e
        | .ok coll =>
          let colls2 :=
            if containColl st.collisions coll then st.collisions else st.collisions ++ [coll]
          let dists2 := st.dists.filter fun kv =>
            ¬(kv.2.seed == pair.1.seed || kv.2.seed == pair.2.seed)
          let r1 := resetChain p chains2 pair.1.WID st.ridx
          let r2 := resetChain p r1.1 pair.2.WID r1.2
          .ok ⟨r2.1, dists2, colls2, st.iterations, r2.2⟩
      | none =>
        .ok ⟨chains2, mapSet st.dists next c2, st.collisions, st.iterations, st.ridx⟩
    else .ok ⟨chains2, st.dists, st.collisions, st.iterations, st.ridx⟩

/-- Run the inner worker loop over the given chain indices in order. -/
def processFrom (p : PParams) : List Nat → PState → Except Str PState
  | [], st => .ok st
  | i :: rest, st =>
    match processChain p st i with
    | .error e => .error e
    | .ok st2 => processFrom p rest st2

/-- One full round of the inner loop over all workers. -/
def pollardRound (p : PParams) (st : PState) : Except Str PState :=
  processFrom p (List.range p.numWorkers) st

/-- The stall condition of the outer loop: iterations >= 10e4. -/
def stallCond (st : PState) : Bool := 100000 ≤ st.iterations

/-- Freshly seeded chains for slots 0..numWorkers-1, drawing from the
oracle starting at the given index, as the initialization and stall
loops of the source do. -/
def chainsFrom (p : PParams) (base : Nat) : List Chain :=
  (List.range p.numWorkers).map fun i => ⟨seedAt p (base + i), seedAt p (base + i), 0, i⟩

/-- The stall branch: reseed every chain, clear the whole registry, and
zero the iteration counter; the collision list is untouched. -/
def stallReset (p : PParams) (st : PState) : PState :=
  ⟨chainsFrom p st.ridx, [], st.collisions, 0, st.ridx + p.numWorkers⟩

/-- One iteration of the outer for loop of PollardAttack: the stall
branch when the budget is consumed, otherwise bump the counter and run
one round of workers. -/
def pollardIter (p : PParams) (st : PState) : Except Str PState :=
  if stallCond st then .ok (stallReset p st)
  else pollardRound p { st with iterations := st.iterations + 1 }

/-- The state of PollardAttack right after the chain initialization loop. -/
def pollardInit (p : PParams) : PState :=
  ⟨chainsFrom p 0, [], [], 0, p.numWorkers⟩

/-- The state sequence of the outer loop body, ignoring the termination
test (the trace of the run while the collision target is not reached). -/
def pollardTrace (p : PParams) : Nat → Except Str PState
  | 0 => .ok (pollardInit p)
  | n + 1 =>
    match pollardTrace p n with
    | .error e => .error e
    | .ok st => pollardIter p st

/-- The outer for loop of PollardAttack with explicit fuel: none models a
run that has not terminated within the fuel. -/
def pollardLoop (p : PParams) : Nat → PState → Option (Except Str PState)
  | 0, _ => none
  | fuel + 1, st =>
    if st.collisions.length < p.numColls then
      match pollardIter p st with
      | .error e => some (.error e)
      | .ok st2 => pollardLoop p fuel st2
    else some (.ok st)

/-- PollardAttack from pollard_attack.go, projected to the collision list
it returns (the other return values are timing and memory estimates). -/
def PollardColls (p : PParams) (fuel : Nat) : Option (Except Str (List Collision)) :=
  (pollardLoop p fuel (pollardInit p)).map fun r => r.map fun st => st.collisions

/-! ## BirthdayAttack from birthday_attack.go

The rand.Read source is modelled as an oracle of 6-byte messages (each
draw clamped to MsgLen bytes below 256, which is what filling a 6-byte
buffer produces). -/

/-- Parameters of one BirthdayAttack call, with the randomness oracle. -/
structure BParams where
  num : Nat
  outBits : Nat
  oracle : Nat → List Nat

/-- The 6-byte random message of draw i. -/
def msgAt (p : BParams) (i : Nat) : Bytes :=
  ((p.oracle i).map (· % 256) ++ List.replicate MsgLen 0).take MsgLen

/-- The loop of BirthdayAttack with explicit fuel: draw a message, hash
it, and either record a collision against the dictionary entry holding
the same digest (when the stored hex message differs and the pair is
new) or insert the digest.  Returns none when the fuel runs out before
the target is reached. -/
def birthdayLoop (p : BParams) :
    Nat → List (Str × Str) → List Collision → Nat → Option (Except Str (List Collision))
  | 0, _, _, _ => none
  | fuel + 1, dict, colls, idx =>
    if colls.length < p.num then
      let v := msgAt p idx
      match SHA_xx v p.outBits with
      | .error e => some (.error e)
      | .ok h =>
        match (dict.find? (fun kv => kv.1 == h)).map (fun kv => kv.2) with
        | some prev =>
          let hx := hexEncode v
          let colls2 :=
            if !(prev == hx) && !containColl colls ⟨prev, hx⟩ then colls ++ [⟨prev, hx⟩]
            else colls
          birthdayLoop p fuel dict colls2 (idx + 1)
        | none => birthdayLoop p fuel (dict ++ [(h, hexEncode v)]) colls (idx + 1)
    else some (.ok colls)

/-- BirthdayAttack from birthday_attack.go, projected to its collision
list. -/
def BirthdayColls (p : BParams) (fuel : Nat) : Option (Except Str (List Collision)) :=
  birthdayLoop p fuel [] [] 0

/-! ## Derived notions used in the statements -/

/-- Set equality of two Collision values as unordered pairs. -/
def collEquiv (c d : Collision) : Prop :=
  (c.X = d.X ∧ c.Y = d.Y) ∨ (c.X = d.Y ∧ c.Y = d.X)

/-- The truncated digest of a Pollard input: SHA_xx applied to its
byte-decoded bit-string, with the discarded-error convention of chainFunc. -/
def binDigest (outBits : Nat) (x : Str) : Except Str Str :=
  SHA_xx (exBytes (binToBytes x)) outBits

/-- Whether an Except value is a success. -/
def isOkB : Except Str Str → Bool
  | .ok _ => true
  | .error _ => false

/-- The shape accepted by math/big Int.SetString with base 2, written out
from the amended claim: an optional sign followed by a non-empty run of
binary digits. -/
def signedBinShape (s : Str) : Bool :=
  match s with
  | [] => false
  | c :: rest =>
    if c = '+' ∨ c = '-' then !rest.isEmpty && rest.all isBit
    else !(c :: rest).isEmpty && (c :: rest).all isBit

/-- The all-zero 8-bit seed drawn by the constant-zero oracle. -/
def zeros8 : Str := strL "00000000"

/-- A concrete PollardAttack call: outputBits 8, distinguishedBits 2, two
collisions requested, two workers, constant-zero randomness. -/
def P4 : PParams := ⟨8, 2, 2, 2, fun _ => 0⟩

/-- The collision this run records in its first round. -/
def c00 : Collision := ⟨zeros8, zeros8⟩

/-- The chain value one step after the all-zero seed. -/
def vz : Str := chainPure 8 zeros8

/-- Both worker chains freshly seeded with the all-zero seed. -/
def freshPair : List Chain := [⟨zeros8, zeros8, 0, 0⟩, ⟨zeros8, zeros8, 0, 1⟩]

/-- The state of the P4 run after k rounds (k at least 1): the run is
periodic, finding the same already-recorded collision every round. -/
def S4 (k : Nat) : PState := ⟨freshPair, [], [c00], k, 2 + 2 * k⟩

/-- The loop invariant of PollardAttack used below: registry keys are
pairwise distinct, every recorded collision has equal truncated digests,
and no two recorded collisions are equal as unordered pairs. -/
def PInv (p : PParams) (st : PState) : Prop :=
  (st.dists.map Prod.fst).Nodup ∧
  (∀ c ∈ st.collisions, binDigest p.outBits c.X = binDigest p.outBits c.Y) ∧
  List.Pairwise (fun a b => ¬collEquiv a b) st.collisions

/-- The loop invariant of BirthdayAttack used below: every dictionary
entry stores the hex encoding of a byte message hashing to its key, every
recorded collision is a pair of distinct hex messages with equal
truncated digests, and no two recorded collisions are equal as unordered
pairs. -/
def BInv (p : BParams) (dict : List (Str × Str)) (colls : List Collision) : Prop :=
  (∀ kv ∈ dict, ∃ v : Bytes, (∀ x ∈ v, x < 256) ∧ kv.2 = hexEncode v ∧
    SHA_xx v p.outBits = .ok kv.1) ∧
  (∀ c ∈ colls, c.X ≠ c.Y ∧ ∃ vx vy, hexDecode c.X = .ok vx ∧ hexDecode c.Y = .ok vy ∧
    SHA_xx vx p.outBits = SHA_xx vy p.outBits) ∧
  List.Pairwise (fun a b => ¬collEquiv a b) colls

/-! # Theorems -/

/-! ## Rendering lemmas -/

theorem digitsRep_two_length :
    ∀ fuel n, n ≤ fuel → ∀ k, n < 2 ^ k → (digitsRep 2 fuel n).length ≤ k := by
  intro fuel
  induction fuel with
  | zero =>
    intro n hn k _
    interval_cases n
    simp [digitsRep]
  | succ f ih =>
    intro n hn k hk
    by_cases h0 : n = 0
    · simp [digitsRep, h0]
    · have hk1 : 1 ≤ k := by
        by_contra h
        have : k = 0 := by omega
        subst this
        simp at hk
        omega
      have hdiv : n / 2 < 2 ^ (k - 1) := by
        have h2 : 2 ^ k = 2 ^ (k - 1) * 2 := by
          rw [← pow_succ]
          congr 1
          omega
        exact Nat.div_lt_of_lt_mul (by omega)
      have hfuel : n / 2 ≤ f := by
        have := Nat.div_lt_self (Nat.pos_of_ne_zero h0) (by norm_num : 1 < 2)
        omega
      have := ih (n / 2) hfuel (k - 1) hdiv
      simp only [digitsRep, if_neg h0, List.length_append, List.length_cons,
        List.length_nil]
      omega

theorem natToBin_length_le {n k : Nat} (hn : n < 2 ^ k) (hk : 1 ≤ k) :
    (natToBin n).length ≤ k := by
  by_cases h0 : n = 0
  · simp [natToBin, h0]
    omega
  · simp only [natToBin, if_neg h0]
    exact digitsRep_two_length n n le_rfl k hn

theorem binPad_length {w n : Nat} (hn : n < 2 ^ w) (hw : 1 ≤ w) :
    (binPad w n).length = w := by
  have := natToBin_length_le hn hw
  simp [binPad]
  omega

theorem digitsRep_two_chars :
    ∀ fuel n, ∀ c ∈ digitsRep 2 fuel n, c = '0' ∨ c = '1' := by
  intro fuel
  induction fuel with
  | zero => intro n c hc; simp [digitsRep] at hc
  | succ f ih =>
    intro n c hc
    by_cases h0 : n = 0
    · simp [digitsRep, h0] at hc
    · simp only [digitsRep, if_neg h0, List.mem_append, List.mem_singleton] at hc
      rcases hc with hc | hc
      · exact ih (n / 2) c hc
      · have h2 : n % 2 = 0 ∨ n % 2 = 1 := Nat.mod_two_eq_zero_or_one n
        rcases h2 with h2 | h2 <;> simp [hc, h2]

theorem binPad_chars {w n : Nat} : ∀ c ∈ binPad w n, c = '0' ∨ c = '1' := by
  intro c hc
  simp only [binPad, List.mem_append, List.mem_replicate] at hc
  rcases hc with hc | hc
  · exact Or.inl hc.2
  · by_cases h0 : n = 0
    · simp [natToBin, h0] at hc
      exact Or.inl hc
    · simp only [natToBin, if_neg h0] at hc
      exact digitsRep_two_chars n n c hc

/-! ## SHA_xx lemmas -/

theorem SHA_xx_ok {b : Nat} (msg : Bytes) (h1 : MinOut ≤ b) (h2 : b ≤ MaxOut) :
    SHA_xx msg b = .ok (binPad b (sha256Nat msg &&& (2 ^ b - 1))) := by
  have h1n : 8 ≤ b := h1
  have h2n : b ≤ 24 := h2
  simp only [SHA_xx, MinOut, MaxOut]
  rw [if_neg (by omega)]

theorem SHA_xx_masked_lt {b : Nat} (msg : Bytes) :
    sha256Nat msg &&& (2 ^ b - 1) < 2 ^ b := by
  have h1 : sha256Nat msg &&& (2 ^ b - 1) ≤ 2 ^ b - 1 := Nat.and_le_right
  have h2 : 0 < 2 ^ b := pow_pos (by norm_num) b
  omega

/-- chainFunc never fails for a valid output width, and its result is the
truncated digest with the four-zero suffix appended. -/
theorem chainFunc_ok {b : Nat} (x : Str) (h1 : MinOut ≤ b) (h2 : b ≤ MaxOut) :
    ∃ hx, binDigest b x = .ok hx ∧ hx.length = b ∧
      chainFunc x b = .ok (P hx) ∧ chainPure b x = P hx := by
  have h1n : 8 ≤ b := h1
  have hlen : (binPad b (sha256Nat (exBytes (binToBytes x)) &&& (2 ^ b - 1))).length = b :=
    binPad_length (SHA_xx_masked_lt _) (by omega)
  have hnotlt : ¬(P (binPad b (sha256Nat (exBytes (binToBytes x)) &&& (2 ^ b - 1)))).length < b := by
    simp only [P, List.length_append, List.length_cons, List.length_nil, hlen]
    omega
  refine ⟨binPad b (sha256Nat (exBytes (binToBytes x)) &&& (2 ^ b - 1)), ?_, hlen, ?_, ?_⟩
  · exact SHA_xx_ok _ h1 h2
  · simp only [chainFunc, SHA_xx_ok _ h1 h2]
    rw [if_neg hnotlt]
  · simp only [chainPure, chainFunc, SHA_xx_ok _ h1 h2]
    rw [if_neg hnotlt]
    rfl

/-! ## Claim C8 -/

/-- Claim C8: for every outputBits in [8,24] and every input byte
sequence, SHA_xx succeeds, is deterministic (two calls with equal
arguments return equal results), and returns a zero-padded binary string
whose length is exactly outputBits. -/
theorem SHA_xx_spec (msg : Bytes) (b : Nat) (h1 : 8 ≤ b) (h2 : b ≤ 24) :
    ∃ s, SHA_xx msg b = .ok s ∧ s.length = b ∧ (∀ c ∈ s, c = '0' ∨ c = '1') ∧
      s = binPad b (sha256Nat msg &&& (2 ^ b - 1)) ∧
      ∀ msg2 b2, msg2 = msg → b2 = b → SHA_xx msg2 b2 = SHA_xx msg b := by
  refine ⟨_, SHA_xx_ok msg h1 h2, binPad_length (SHA_xx_masked_lt _) (by omega),
    binPad_chars, rfl, ?_⟩
  intro msg2 b2 e1 e2
  rw [e1, e2]

/-- Witness for C8 at msg = [0], outputBits = 8. -/
theorem SHA_xx_spec_witness :
    8 ≤ 8 ∧ (8 : Nat) ≤ 24 ∧
      ∃ s, SHA_xx [0] 8 = .ok s ∧ s.length = 8 ∧ (∀ c ∈ s, c = '0' ∨ c = '1') ∧
        s = binPad 8 (sha256Nat [0] &&& (2 ^ 8 - 1)) ∧
        ∀ msg2 b2, msg2 = [0] → b2 = 8 → SHA_xx msg2 b2 = SHA_xx [0] 8 :=
  ⟨by norm_num, by norm_num, SHA_xx_spec [0] 8 (by norm_num) (by norm_num)⟩

/-! ## Claim C9 -/

theorem binDigits?_isSome (r : Str) :
    (binDigits? r).isSome = (!r.isEmpty && r.all isBit) := by
  cases r with
  | nil => rfl
  | cons c t =>
    simp only [binDigits?, List.isEmpty_cons, Bool.not_false, Bool.true_and]
    by_cases hB : (c :: t).all isBit
    · rw [if_pos ⟨by simp, hB⟩, hB]
      rfl
    · rw [if_neg (fun hcon => hB hcon.2), Bool.not_eq_true] at *
      rw [hB]
      rfl

theorem isSome_map_eq {α β : Type} (f : α → β) (o : Option α) :
    (o.map f).isSome = o.isSome := by
  cases o <;> rfl

theorem BinToHex_isOk (s : Str) : isOkB (BinToHex s) = (bigSetString2 s).isSome := by
  simp only [BinToHex]
  cases h : bigSetString2 s with
  | none => rfl
  | some p => rfl

/-- Claim C9 counterexample: the input -1 contains the character '-',
which is neither '0' nor '1', yet BinToHex succeeds on it, returning -1:
big.Int SetString accepts an optional leading sign in any base. -/
theorem BinToHex_sign_counterexample :
    ('-' ∈ strL "-1" ∧ '-' ≠ '0' ∧ '-' ≠ '1') ∧ BinToHex (strL "-1") = .ok (strL "-1") := by
  constructor
  · refine ⟨?_, by decide, by decide⟩
    simp [strL]
  · rfl

/-- Claim C9 amended: BinToHex succeeds on every non-empty string of
binary digits, and in general it succeeds exactly on the strings made of
an optional leading sign, '+' or '-', followed by a non-empty run of
binary digits; every other string (in particular every other string
containing a character that is neither '0' nor '1') is rejected with an
error. -/
theorem BinToHex_amended :
    (∀ s : Str, s ≠ [] → (∀ c ∈ s, c = '0' ∨ c = '1') → ∃ h, BinToHex s = .ok h) ∧
    (∀ s : Str, isOkB (BinToHex s) = signedBinShape s) := by
  constructor
  · intro s hne hbin
    have hall : s.all isBit = true := by
      rw [List.all_eq_true]
      intro c hc
      rcases hbin c hc with h | h <;> simp [isBit, h]
    obtain ⟨c, rest, rfl⟩ : ∃ c rest, s = c :: rest := by
      cases s with
      | nil => exact absurd rfl hne
      | cons c rest => exact ⟨c, rest, rfl⟩
    have hc := hbin c (by simp)
    have hcp : c ≠ '+' := by rcases hc with h | h <;> simp [h]
    have hcm : c ≠ '-' := by rcases hc with h | h <;> simp [h]
    simp only [BinToHex, bigSetString2, if_neg hcp, if_neg hcm, binDigits?]
    rw [if_pos ⟨by simp, hall⟩]
    exact ⟨_, rfl⟩
  · intro s
    rw [BinToHex_isOk]
    cases s with
    | nil => rfl
    | cons c rest =>
      by_cases h1 : c = '+'
      · subst h1
        have e1 : bigSetString2 ('+' :: rest) = (binDigits? rest).map (fun n => (false, n)) := rfl
        have e2 : signedBinShape ('+' :: rest) = (!rest.isEmpty && rest.all isBit) := rfl
        rw [e1, e2, isSome_map_eq]
        exact binDigits?_isSome rest
      · by_cases h2 : c = '-'
        · subst h2
          have e1 : bigSetString2 ('-' :: rest) =
              (binDigits? rest).map (fun n => (decide (n ≠ 0), n)) := rfl
          have e2 : signedBinShape ('-' :: rest) = (!rest.isEmpty && rest.all isBit) := rfl
          rw [e1, e2, isSome_map_eq]
          exact binDigits?_isSome rest
        · simp only [bigSetString2, signedBinShape, if_neg h1, if_neg h2,
            if_neg (by tauto : ¬(c = '+' ∨ c = '-'))]
          rw [isSome_map_eq]
          exact binDigits?_isSome (c :: rest)

/-- Witness for the amended C9 at the input 1. -/
theorem BinToHex_amended_witness :
    (['1'] : Str) ≠ [] ∧ (∀ c ∈ (['1'] : Str), c = '0' ∨ c = '1') ∧
      (∃ h, BinToHex ['1'] = .ok h) ∧ isOkB (BinToHex ['1']) = signedBinShape ['1'] :=
  ⟨by simp, by simp, BinToHex_amended.1 ['1'] (by simp) (by simp),
    BinToHex_amended.2 ['1']⟩

/-! ## Claim C10 -/

/-- Claim C10: BinToHex is invariant under prepending a zero bit to a
non-empty binary string (the hex output encodes only the numeric value,
so the original bit length is not recoverable from it). -/
theorem BinToHex_leading_zero (s : Str) (h1 : s ≠ []) (h2 : ∀ c ∈ s, c = '0' ∨ c = '1') :
    BinToHex ('0' :: s) = BinToHex s := by
  have hall : s.all isBit = true := by
    rw [List.all_eq_true]
    intro c hc
    rcases h2 c hc with h | h <;> simp [isBit, h]
  obtain ⟨c, rest, rfl⟩ : ∃ c rest, s = c :: rest := by
    cases s with
    | nil => exact absurd rfl h1
    | cons c rest => exact ⟨c, rest, rfl⟩
  have hc := h2 c (by simp)
  have hcp : c ≠ '+' := by rcases hc with h | h <;> simp [h]
  have hcm : c ≠ '-' := by rcases hc with h | h <;> simp [h]
  simp only [BinToHex, bigSetString2, if_neg hcp, if_neg hcm,
    if_neg (by decide : ¬('0' = '+')), if_neg (by decide : ¬('0' = '-'))]
  have hz : binVal ('0' :: c :: rest) = binVal (c :: rest) := by
    simp [binVal]
  simp only [binDigits?]
  rw [if_pos ⟨by simp, by simp [List.all_cons, hall, isBit]⟩, if_pos ⟨by simp, hall⟩, hz]

/-- Witness for C10 at s = 1 (so 01 and 1 map to the same hex string). -/
theorem BinToHex_leading_zero_witness :
    (['1'] : Str) ≠ [] ∧ (∀ c ∈ (['1'] : Str), c = '0' ∨ c = '1') ∧
      BinToHex ['0', '1'] = BinToHex ['1'] :=
  ⟨by simp, by simp, BinToHex_leading_zero ['1'] (by simp) (by simp)⟩

/-! ## Claim C3 -/

/-- Claim C3 is violated by the code: chainFunc on the 8-bit all-zero
state with outputBits 8 returns a 12-character string, not an 8-character
one — the constant suffix is appended but the claimed re-truncation to
outputBits never happens (the source comment announces taking the last
outBits characters; the code returns the appended string whole). -/
theorem chainFunc_length_bug :
    ∃ s, chainFunc (strL "00000000") 8 = .ok s ∧ s.length = 12 := by
  obtain ⟨hx, _, hlen, hcf, _⟩ := chainFunc_ok (b := 8) (strL "00000000") (by decide) (by decide)
  refine ⟨P hx, hcf, ?_⟩
  simp only [P, List.length_append, List.length_cons, List.length_nil, hlen]

/-! ## Claim C1 -/

theorem chainFunc_eq_ok {b : Nat} (x : Str) (h1 : MinOut ≤ b) (h2 : b ≤ MaxOut) :
    chainFunc x b = .ok (chainPure b x) := by
  obtain ⟨hx, _, _, hcf, hcp⟩ := chainFunc_ok (b := b) x h1 h2
  rw [hcf, hcp]

theorem chainN_ok {b : Nat} (h1 : MinOut ≤ b) (h2 : b ≤ MaxOut) :
    ∀ n x, chainN b n x = .ok ((chainPure b)^[n] x) := by
  intro n
  induction n with
  | zero => intro x; rfl
  | succ m ih =>
    intro x
    simp only [chainN, chainFunc_eq_ok x h1 h2]
    rw [ih (chainPure b x), Function.iterate_succ_apply]

theorem syncLoop_found {b : Nat} (h1 : MinOut ≤ b) (h2 : b ≤ MaxOut) :
    ∀ fuel k a c, k < fuel →
      (chainPure b)^[k + 1] a = (chainPure b)^[k + 1] c →
      (∀ j, j < k → (chainPure b)^[j + 1] a ≠ (chainPure b)^[j + 1] c) →
      syncLoop b fuel a c = .ok ⟨(chainPure b)^[k] a, (chainPure b)^[k] c⟩ := by
  intro fuel
  induction fuel with
  | zero => intro k a c hk; exact absurd hk (Nat.not_lt_zero k)
  | succ f ih =>
    intro k a c hk heq hmin
    have hA : exVal (chainFunc a b) = chainPure b a := rfl
    simp only [syncLoop, chainFunc_eq_ok c h1 h2, hA]
    cases k with
    | zero =>
      have heq1 : chainPure b a = chainPure b c := by simpa using heq
      rw [if_pos (by rw [heq1]; exact beq_self_eq_true _)]
      simp
    | succ m =>
      have hne : chainPure b a ≠ chainPure b c := by
        have := hmin 0 (Nat.succ_pos m)
        simpa using this
      rw [if_neg (by simpa using hne)]
      have heq2 : (chainPure b)^[m + 1] (chainPure b a) =
          (chainPure b)^[m + 1] (chainPure b c) := by
        rw [← Function.iterate_succ_apply, ← Function.iterate_succ_apply]
        exact heq
      have hmin2 : ∀ j, j < m →
          (chainPure b)^[j + 1] (chainPure b a) ≠ (chainPure b)^[j + 1] (chainPure b c) := by
        intro j hj
        rw [← Function.iterate_succ_apply, ← Function.iterate_succ_apply]
        exact hmin (j + 1) (by omega)
      have := ih m (chainPure b a) (chainPure b c) (by omega) heq2 hmin2
      rw [this, Function.iterate_succ_apply, Function.iterate_succ_apply]

theorem syncLoop_notfound {b : Nat} (h1 : MinOut ≤ b) (h2 : b ≤ MaxOut) :
    ∀ fuel a c,
      (∀ k, k < fuel → (chainPure b)^[k + 1] a ≠ (chainPure b)^[k + 1] c) →
      syncLoop b fuel a c = .error (strL "exact collision not found") := by
  intro fuel
  induction fuel with
  | zero => intro a c _; rfl
  | succ f ih =>
    intro a c hmin
    have hA : exVal (chainFunc a b) = chainPure b a := rfl
    simp only [syncLoop, chainFunc_eq_ok c h1 h2, hA]
    have hne : chainPure b a ≠ chainPure b c := by
      have := hmin 0 (Nat.succ_pos f)
      simpa using this
    rw [if_neg (by simpa using hne)]
    apply ih
    intro k hk
    rw [← Function.iterate_succ_apply, ← Function.iterate_succ_apply]
    exact hmin (k + 1) (by omega)

/-- Claim C1: for every pair of seeds, every delta, and every outputBits
in [8,24], findExactCollision walks the first seed forward exactly delta
chain steps and then walks both values in lock-step, recording the pair
before each step; if the k-th synchronized step (k below the 10e6 cap)
is the first to make the two values equal, it returns the pair recorded
immediately before that step, whose two components map to the same value
under one further chain step; if no synchronized step within the cap
reaches equality, it returns an error instead of a collision. -/
theorem findExactCollision_spec (A C : Str) (δ b : Nat) (h1 : 8 ≤ b) (h2 : b ≤ 24) :
    (∀ k, k < 10000000 →
        (chainPure b)^[δ + k + 1] A = (chainPure b)^[k + 1] C →
        (∀ j, j < k → (chainPure b)^[δ + j + 1] A ≠ (chainPure b)^[j + 1] C) →
        findExactCollision A C δ b = .ok ⟨(chainPure b)^[δ + k] A, (chainPure b)^[k] C⟩ ∧
          chainFunc ((chainPure b)^[δ + k] A) b = chainFunc ((chainPure b)^[k] C) b) ∧
    ((∀ k, k < 10000000 → (chainPure b)^[δ + k + 1] A ≠ (chainPure b)^[k + 1] C) →
        findExactCollision A C δ b = .error (strL "exact collision not found")) := by
  have hiter : ∀ m, (chainPure b)^[m] ((chainPure b)^[δ] A) = (chainPure b)^[m + δ] A := by
    intro m
    rw [Function.iterate_add_apply]
  have hfind : findExactCollision A C δ b = syncLoop b 10000000 ((chainPure b)^[δ] A) C := by
    simp only [findExactCollision, chainN_ok h1 h2 δ A]
  constructor
  · intro k hk heq hmin
    have heq2 : (chainPure b)^[k + 1] ((chainPure b)^[δ] A) = (chainPure b)^[k + 1] C := by
      rw [hiter]
      rw [show k + 1 + δ = δ + k + 1 by omega]
      exact heq
    have hmin2 : ∀ j, j < k →
        (chainPure b)^[j + 1] ((chainPure b)^[δ] A) ≠ (chainPure b)^[j + 1] C := by
      intro j hj
      rw [hiter, show j + 1 + δ = δ + j + 1 by omega]
      exact hmin j hj
    have hsync := syncLoop_found h1 h2 10000000 k ((chainPure b)^[δ] A) C hk heq2 hmin2
    rw [hiter, show k + δ = δ + k by omega] at hsync
    refine ⟨by rw [hfind, hsync], ?_⟩
    rw [chainFunc_eq_ok _ h1 h2, chainFunc_eq_ok _ h1 h2]
    have hstep : chainPure b ((chainPure b)^[δ + k] A) = chainPure b ((chainPure b)^[k] C) :=
      calc chainPure b ((chainPure b)^[δ + k] A)
          = (chainPure b)^[δ + k + 1] A := (Function.iterate_succ_apply' _ _ _).symm
        _ = (chainPure b)^[k + 1] C := heq
        _ = chainPure b ((chainPure b)^[k] C) := Function.iterate_succ_apply' _ _ _
    rw [hstep]
  · intro hmin
    rw [hfind]
    apply syncLoop_notfound h1 h2
    intro k hk
    rw [hiter, show k + 1 + δ = δ + k + 1 by omega]
    exact hmin k hk

/-- Witness for C1 with equal seeds, delta 0 and outputBits 8: the first
synchronized step already agrees, so the seed pair itself is returned. -/
theorem findExactCollision_spec_witness :
    findExactCollision ['0'] ['0'] 0 8 = .ok ⟨['0'], ['0']⟩ := by
  have h := ((findExactCollision_spec ['0'] ['0'] 0 8 (by norm_num) (by norm_num)).1 0
    (by norm_num) rfl (by intro j hj; exact absurd hj (Nat.not_lt_zero j))).1
  simpa using h

/-! ## Dedup and digest lemmas shared by the run-level claims -/

theorem containColl_iff (arr : List Collision) (d : Collision) :
    containColl arr d = true ↔ ∃ c ∈ arr, collEquiv c d := by
  simp [containColl, List.any_eq_true, collEquiv, Bool.or_eq_true, Bool.and_eq_true,
    beq_iff_eq]

theorem containColl_swap (arr : List Collision) (a b : Str) :
    containColl arr ⟨a, b⟩ = containColl arr ⟨b, a⟩ := by
  induction arr with
  | nil => rfl
  | cons v t ih =>
    simp only [containColl, List.any_cons] at *
    rw [ih]
    congr 1
    exact Bool.or_comm _ _

theorem chainFunc_ok_digest {x : Str} {b : Nat} {y : Str} (h : chainFunc x b = .ok y) :
    ∃ hx, binDigest b x = .ok hx ∧ y = P hx := by
  simp only [chainFunc] at h
  split at h
  · exact absurd h (by simp)
  · rename_i hash hs
    split at h
    · exact absurd h (by simp)
    · refine ⟨hash, hs, ?_⟩
      simpa using h.symm

theorem chainFunc_ok_ne_nil {x : Str} {b : Nat} {y : Str} (h : chainFunc x b = .ok y) :
    y ≠ [] := by
  obtain ⟨hx, _, rfl⟩ := chainFunc_ok_digest h
  simp [P]

theorem P_inj {a b : Str} (h : P a = P b) : a = b := by
  simpa [P] using h

theorem chainFunc_same_digest {x y : Str} {b : Nat} {w : Str}
    (hx : chainFunc x b = .ok w) (hy : chainFunc y b = .ok w) :
    binDigest b x = binDigest b y := by
  obtain ⟨dx, hdx, hwx⟩ := chainFunc_ok_digest hx
  obtain ⟨dy, hdy, hwy⟩ := chainFunc_ok_digest hy
  have : dx = dy := P_inj (hwx.symm.trans hwy)
  rw [hdx, hdy, this]

theorem syncLoop_digest {b : Nat} :
    ∀ fuel a c coll, syncLoop b fuel a c = .ok coll →
      ∃ w, chainFunc coll.X b = .ok w ∧ chainFunc coll.Y b = .ok w := by
  intro fuel
  induction fuel with
  | zero => intro a c coll h; exact absurd h (by simp [syncLoop])
  | succ f ih =>
    intro a c coll h
    simp only [syncLoop] at h
    split at h
    · exact absurd h (by simp)
    · rename_i b2 hc
      split at h
      · rename_i hbe
        have hcoll : coll = ⟨a, c⟩ := by simpa using h.symm
        subst hcoll
        cases ha : chainFunc a b with
        | ok w =>
          have hw : w = b2 := by
            rw [ha] at hbe
            exact eq_of_beq hbe
          subst hw
          exact ⟨w, rfl, hc⟩
        | error e =>
          rw [ha] at hbe
          have hnil : b2 = [] := (eq_of_beq hbe).symm
          exact absurd hnil (chainFunc_ok_ne_nil hc)
      · exact ih _ _ _ h

theorem findExactCollision_digest {A C : Str} {δ b : Nat} {coll : Collision}
    (h : findExactCollision A C δ b = .ok coll) :
    binDigest b coll.X = binDigest b coll.Y := by
  simp only [findExactCollision] at h
  split at h
  · exact absurd h (by simp)
  · obtain ⟨w, hx, hy⟩ := syncLoop_digest _ _ _ _ h
    exact chainFunc_same_digest hx hy

/-! ## Invalid-width lemmas -/

theorem SHA_xx_invalid {b : Nat} (msg : Bytes) (hb : b < MinOut ∨ MaxOut < b) :
    SHA_xx msg b = .error (strL "Invalid out vector size") := by
  simp only [SHA_xx]
  rw [if_pos hb]

theorem chainFunc_invalid {b : Nat} (x : Str) (hb : b < MinOut ∨ MaxOut < b) :
    chainFunc x b = .error (strL "Invalid out vector size") := by
  simp only [chainFunc, SHA_xx_invalid _ hb]

/-! ## Registry and state lemmas for the Pollard loop -/

theorem mapLookup_none {m : List (Str × Chain)} {k : Str} (h : mapLookup m k = none) :
    ∀ kv ∈ m, ¬(kv.1 == k) = true := by
  intro kv hkv
  simp only [mapLookup] at h
  cases hfd : m.find? (fun kv => kv.1 == k) with
  | none => exact List.find?_eq_none.mp hfd kv hkv
  | some x => rw [hfd] at h; exact absurd h (by simp)

theorem mapSet_fresh {m : List (Str × Chain)} {k : Str} {v : Chain}
    (h : mapLookup m k = none) : mapSet m k v = m ++ [(k, v)] := by
  simp only [mapSet]
  rw [if_neg]
  intro hany
  rw [List.any_eq_true] at hany
  obtain ⟨kv, hkv, hbe⟩ := hany
  exact mapLookup_none h kv hkv hbe

theorem mapSet_fresh_nodup {m : List (Str × Chain)} {k : Str} {v : Chain}
    (h : mapLookup m k = none) (hnd : (m.map Prod.fst).Nodup) :
    ((mapSet m k v).map Prod.fst).Nodup := by
  rw [mapSet_fresh h, List.map_append]
  rw [List.nodup_append]
  refine ⟨hnd, by simp, ?_⟩
  intro a ha hb
  simp only [List.map_cons, List.map_nil, List.mem_singleton] at hb
  subst hb
  obtain ⟨kv, hkv, hfst⟩ := List.mem_map.mp ha
  have := mapLookup_none h kv hkv
  rw [hfst] at this
  exact this (by simp)

theorem filter_keys_nodup {m : List (Str × Chain)} {q : Str × Chain → Bool}
    (hnd : (m.map Prod.fst).Nodup) : ((m.filter q).map Prod.fst).Nodup :=
  hnd.sublist ((List.filter_sublist m).map Prod.fst)

/-- processChain preserves the Pollard loop invariant. -/
theorem processChain_inv {p : PParams} {st st2 : PState} {i : Nat}
    (h : processChain p st i = .ok st2) (hinv : PInv p st) : PInv p st2 := by
  simp only [processChain] at h
  split at h
  · obtain rfl : st = st2 := by simpa using h
    exact hinv
  · rename_i next hcf
    split at h
    · split at h
      · rename_i val hlk
        split at h
        · exact absurd h (by simp)
        · rename_i coll hfe
          obtain rfl : _ = st2 := by exact (by simpa using h : _ = st2)
          refine ⟨filter_keys_nodup hinv.1, ?_, ?_⟩
          · by_cases hcc : containColl st.collisions coll = true
            · simpa [hcc] using hinv.2.1
            · rw [Bool.not_eq_true] at hcc
              simp only [hcc, Bool.false_eq_true, if_false]
              intro c hc
              rcases List.mem_append.mp hc with hc | hc
              · exact hinv.2.1 c hc
              · rw [List.mem_singleton] at hc
                subst hc
                exact findExactCollision_digest hfe
          · by_cases hcc : containColl st.collisions coll = true
            · simpa [hcc] using hinv.2.2
            · rw [Bool.not_eq_true] at hcc
              simp only [hcc, Bool.false_eq_true, if_false]
              rw [List.pairwise_append]
              refine ⟨hinv.2.2, by simp, ?_⟩
              intro a ha b hb
              rw [List.mem_singleton] at hb
              subst hb
              intro hequiv
              exact absurd ((containColl_iff _ _).mpr ⟨a, ha, hequiv⟩) (by rw [hcc]; simp)
      · rename_i hlk
        obtain rfl : _ = st2 := by exact (by simpa using h : _ = st2)
        exact ⟨mapSet_fresh_nodup hlk hinv.1, hinv.2.1, hinv.2.2⟩
    · obtain rfl : _ = st2 := by exact (by simpa using h : _ = st2)
      exact ⟨hinv.1, hinv.2.1, hinv.2.2⟩

/-- processChain never changes the iteration counter. -/
theorem processChain_iterations {p : PParams} {st st2 : PState} {i : Nat}
    (h : processChain p st i = .ok st2) : st2.iterations = st.iterations := by
  simp only [processChain] at h
  split at h
  · obtain rfl : st = st2 := by simpa using h
    rfl
  · split at h
    · split at h
      · split at h
        · exact absurd h (by simp)
        · obtain rfl : _ = st2 := by exact (by simpa using h : _ = st2)
          rfl
      · obtain rfl : _ = st2 := by exact (by simpa using h : _ = st2)
        rfl
    · obtain rfl : _ = st2 := by exact (by simpa using h : _ = st2)
      rfl

/-- With an invalid output width every chain step errors and the continue
statement makes the whole inner loop a no-op. -/
theorem processChain_invalid {p : PParams} (st : PState) (i : Nat)
    (hb : p.outBits < MinOut ∨ MaxOut < p.outBits) : processChain p st i = .ok st := by
  simp only [processChain, chainFunc_invalid _ hb]

theorem processFrom_inv {p : PParams} :
    ∀ l st st2, processFrom p l st = .ok st2 → PInv p st → PInv p st2 := by
  intro l
  induction l with
  | nil =>
    intro st st2 h hinv
    obtain rfl : st = st2 := by simpa [processFrom] using h
    exact hinv
  | cons i rest ih =>
    intro st st2 h hinv
    simp only [processFrom] at h
    split at h
    · exact absurd h (by simp)
    · rename_i stm hpc
      exact ih _ _ h (processChain_inv hpc hinv)

theorem processFrom_iterations {p : PParams} :
    ∀ l st st2, processFrom p l st = .ok st2 → st2.iterations = st.iterations := by
  intro l
  induction l with
  | nil =>
    intro st st2 h
    obtain rfl : st = st2 := by simpa [processFrom] using h
    rfl
  | cons i rest ih =>
    intro st st2 h
    simp only [processFrom] at h
    split at h
    · exact absurd h (by simp)
    · rename_i stm hpc
      rw [ih _ _ h, processChain_iterations hpc]

theorem processFrom_invalid {p : PParams}
    (hb : p.outBits < MinOut ∨ MaxOut < p.outBits) :
    ∀ l st, processFrom p l st = .ok st := by
  intro l
  induction l with
  | nil => intro st; rfl
  | cons i rest ih =>
    intro st
    simp only [processFrom, processChain_invalid st i hb]
    exact ih st

theorem pollardIter_inv {p : PParams} {st st2 : PState}
    (h : pollardIter p st = .ok st2) (hinv : PInv p st) : PInv p st2 := by
  simp only [pollardIter] at h
  split at h
  · obtain rfl : stallReset p st = st2 := by simpa using h
    exact ⟨by simp [stallReset], hinv.2.1, hinv.2.2⟩
  · exact processFrom_inv _ _ _ h ⟨hinv.1, hinv.2.1, hinv.2.2⟩

theorem PInv_init (p : PParams) : PInv p (pollardInit p) :=
  ⟨by simp [pollardInit], by simp [pollardInit], by simp [pollardInit]⟩

theorem pollardLoop_inv {p : PParams} :
    ∀ fuel st stF, pollardLoop p fuel st = some (.ok stF) → PInv p st → PInv p stF := by
  intro fuel
  induction fuel with
  | zero => intro st stF h; exact absurd h (by simp [pollardLoop])
  | succ f ih =>
    intro st stF h hinv
    simp only [pollardLoop] at h
    split at h
    · split at h
      · exact absurd h (by simp)
      · rename_i st2 hit
        exact ih _ _ h (pollardIter_inv hit hinv)
    · obtain rfl : st = stF := by simpa using h
      exact hinv

/-! ## Hex roundtrip and the Birthday loop invariant -/

theorem hexDigitVal_enc (d : Nat) (hd : d < 16) :
    hexDigitVal (if d < 10 then Char.ofNat (48 + d) else Char.ofNat (87 + d)) = some d := by
  interval_cases d <;> decide

theorem hexDecode_encode : ∀ v : Bytes, (∀ x ∈ v, x < 256) → hexDecode (hexEncode v) = .ok v := by
  intro v
  induction v with
  | nil => intro _; rfl
  | cons bb t ih =>
    intro hv
    have hb : bb < 256 := hv bb (by simp)
    have h1 : bb / 16 < 16 := by omega
    have h2 : bb % 16 < 16 := by omega
    have henc : hexEncode (bb :: t) =
        (if bb / 16 < 10 then Char.ofNat (48 + bb / 16) else Char.ofNat (87 + bb / 16)) ::
        (if bb % 16 < 10 then Char.ofNat (48 + bb % 16) else Char.ofNat (87 + bb % 16)) ::
        hexEncode t := rfl
    rw [henc]
    simp only [hexDecode, hexDigitVal_enc _ h1, hexDigitVal_enc _ h2,
      ih (fun x hx => hv x (by simp [hx]))]
    have : 16 * (bb / 16) + bb % 16 = bb := by omega
    rw [this]

theorem msgAt_lt (p : BParams) (i : Nat) : ∀ x ∈ msgAt p i, x < 256 := by
  intro x hx
  simp only [msgAt] at hx
  have hx2 := List.take_subset _ _ hx
  rcases List.mem_append.mp hx2 with hx3 | hx3
  · obtain ⟨y, _, rfl⟩ := List.mem_map.mp hx3
    exact Nat.mod_lt y (by norm_num)
  · rw [List.eq_of_mem_replicate hx3]
    norm_num

theorem find?_entry {dict : List (Str × Str)} {h : Str} {prev : Str}
    (hf : (dict.find? (fun kv => kv.1 == h)).map (fun kv => kv.2) = some prev) :
    ∃ kv, (kv ∈ dict ∧ kv.2 = prev) ∧ kv.1 = h := by
  cases hfd : dict.find? (fun kv => kv.1 == h) with
  | none => rw [hfd] at hf; exact absurd hf (by simp)
  | some kv =>
    rw [hfd] at hf
    have hp : kv.2 = prev := by simpa using hf
    have hmem := List.mem_of_find?_eq_some hfd
    have hkey := List.find?_some hfd
    exact ⟨kv, ⟨hmem, hp⟩, eq_of_beq hkey⟩

theorem birthdayLoop_inv {p : BParams} :
    ∀ fuel dict colls idx cf, birthdayLoop p fuel dict colls idx = some (.ok cf) →
      BInv p dict colls → ∃ d2, BInv p d2 cf := by
  intro fuel
  induction fuel with
  | zero => intro dict colls idx cf h; exact absurd h (by simp [birthdayLoop])
  | succ f ih =>
    intro dict colls idx cf h hinv
    simp only [birthdayLoop] at h
    split at h
    · split at h
      · exact absurd h (by simp)
      · rename_i hsh
        split at h
        · rename_i prev hfind
          -- registry hit: a collision may be appended
          refine ih _ _ _ _ h ⟨hinv.1, ?_, ?_⟩
          · by_cases hcond :
                (!(prev == hexEncode (msgAt p idx)) && !containColl colls
                  ⟨prev, hexEncode (msgAt p idx)⟩) = true
            · rw [if_pos hcond]
              rw [Bool.and_eq_true, Bool.not_eq_true', Bool.not_eq_true'] at hcond
              intro c hc
              rcases List.mem_append.mp hc with hc | hc
              · exact hinv.2.1 c hc
              · rw [List.mem_singleton] at hc
                subst hc
                refine ⟨?_, ?_⟩
                · intro hxy
                  change prev = hexEncode (msgAt p idx) at hxy
                  have hbeq : (prev == hexEncode (msgAt p idx)) = true := by
                    rw [hxy]
                    exact beq_self_eq_true _
                  rw [hbeq] at hcond
                  exact absurd hcond.1 (by simp)
                · obtain ⟨kv, hkv, hkeq⟩ := find?_entry hfind
                  obtain ⟨v2, hv2lt, hv2enc, hv2sha⟩ := hinv.1 kv hkv.1
                  refine ⟨v2, msgAt p idx, ?_, ?_, ?_⟩
                  · show hexDecode prev = .ok v2
                    rw [← hkv.2, hv2enc]
                    exact hexDecode_encode v2 hv2lt
                  · show hexDecode (hexEncode (msgAt p idx)) = .ok (msgAt p idx)
                    exact hexDecode_encode _ (msgAt_lt p idx)
                  · rw [hv2sha, hkeq, hsh]
            · rw [if_neg hcond]
              exact hinv.2.1
          · by_cases hcond :
                (!(prev == hexEncode (msgAt p idx)) && !containColl colls
                  ⟨prev, hexEncode (msgAt p idx)⟩) = true
            · rw [if_pos hcond]
              rw [Bool.and_eq_true, Bool.not_eq_true', Bool.not_eq_true'] at hcond
              rw [List.pairwise_append]
              refine ⟨hinv.2.2, by simp, ?_⟩
              intro a ha bcoll hb
              rw [List.mem_singleton] at hb
              subst hb
              intro hequiv
              have : containColl colls ⟨prev, hexEncode (msgAt p idx)⟩ = true :=
                (containColl_iff _ _).mpr ⟨a, ha, hequiv⟩
              rw [this] at hcond
              exact absurd hcond.2 (by simp)
            · rw [if_neg hcond]
              exact hinv.2.2
        · -- new digest: dictionary insert
          refine ih _ _ _ _ h ⟨?_, hinv.2.1, hinv.2.2⟩
          intro kv hkv
          rcases List.mem_append.mp hkv with hkv | hkv
          · exact hinv.1 kv hkv
          · rw [List.mem_singleton] at hkv
            subst hkv
            exact ⟨msgAt p idx, msgAt_lt p idx, rfl, hsh⟩
    · obtain rfl : colls = cf := by simpa using h
      exact ⟨dict, hinv⟩

/-! ## Claim C2 -/

set_option maxRecDepth 40000 in
/-- Claim C2 counterexample: a successful PollardAttack run (outputBits 8,
distinguishedBits 2, one collision requested, two workers, both drawing
the all-zero seed) returns a collision whose two components are the same
string: when the two chains hit the same distinguished point with equal
step counts, the reconciliation starts from already-equal values with
delta 0 and returns the seed paired with itself. -/
theorem pollard_self_collision_counterexample :
    PollardColls ⟨8, 2, 1, 2, fun _ => 0⟩ 2 =
      some (.ok [⟨strL "00000000", strL "00000000"⟩]) := by
  rfl

/-- Claim C2 amended: every Collision returned by a successful
BirthdayAttack run pairs two distinct hex messages whose decoded bytes
have equal SHA_xx digests at the run width; every Collision returned by
a successful PollardAttack run pairs two bit-strings whose byte
decodings have equal SHA_xx digests at the run width, but the two
strings need not be distinct (the counterexample returns a pair with
X = Y). -/
theorem attack_collision_digests (pb : BParams) (pp : PParams) (fb fp : Nat)
    (cb cp : List Collision)
    (hb : BirthdayColls pb fb = some (.ok cb))
    (hp : PollardColls pp fp = some (.ok cp)) :
    (∀ c ∈ cb, c.X ≠ c.Y ∧ ∃ vx vy, hexDecode c.X = .ok vx ∧ hexDecode c.Y = .ok vy ∧
        SHA_xx vx pb.outBits = SHA_xx vy pb.outBits) ∧
    (∀ c ∈ cp, binDigest pp.outBits c.X = binDigest pp.outBits c.Y) := by
  constructor
  · intro c hc
    obtain ⟨d2, hinv⟩ := birthdayLoop_inv fb [] [] 0 cb hb ⟨by simp, by simp, by simp⟩
    exact hinv.2.1 c hc
  · intro c hc
    simp only [PollardColls] at hp
    cases hl : pollardLoop pp fp (pollardInit pp) with
    | none => rw [hl] at hp; exact absurd hp (by simp)
    | some r =>
      rw [hl] at hp
      cases r with
      | error e => exact absurd hp (by simp [Except.map])
      | ok stF =>
        have hcp : stF.collisions = cp := by simpa [Except.map] using hp
        subst hcp
        exact (pollardLoop_inv fp _ _ hl (PInv_init pp)).2.1 c hc

/-- Witness for the amended C2 on two trivial successful runs. -/
theorem attack_collision_digests_witness :
    BirthdayColls ⟨0, 8, fun _ => []⟩ 1 = some (.ok []) ∧
    PollardColls ⟨8, 2, 0, 2, fun _ => 0⟩ 1 = some (.ok []) ∧
    ((∀ c ∈ ([] : List Collision), c.X ≠ c.Y ∧ ∃ vx vy, hexDecode c.X = .ok vx ∧
        hexDecode c.Y = .ok vy ∧ SHA_xx vx 8 = SHA_xx vy 8) ∧
      (∀ c ∈ ([] : List Collision), binDigest 8 c.X = binDigest 8 c.Y)) :=
  ⟨rfl, rfl,
    attack_collision_digests ⟨0, 8, fun _ => []⟩ ⟨8, 2, 0, 2, fun _ => 0⟩ 1 1 [] [] rfl rfl⟩

/-! ## Claim C7 -/

/-- Claim C7: collision membership is tested symmetrically (containColl
reports the unordered pair in either orientation), and the collision
list returned by a successful BirthdayAttack or PollardAttack run never
contains two Collisions that are equal as unordered pairs. -/
theorem collision_dedup_spec :
    (∀ arr (a b : Str), containColl arr ⟨a, b⟩ = containColl arr ⟨b, a⟩) ∧
    (∀ pb fb cb, BirthdayColls pb fb = some (.ok cb) →
      List.Pairwise (fun c d => ¬collEquiv c d) cb) ∧
    (∀ pp fp cp, PollardColls pp fp = some (.ok cp) →
      List.Pairwise (fun c d => ¬collEquiv c d) cp) := by
  refine ⟨containColl_swap, ?_, ?_⟩
  · intro pb fb cb h
    obtain ⟨d2, hinv⟩ := birthdayLoop_inv fb [] [] 0 cb h ⟨by simp, by simp, by simp⟩
    exact hinv.2.2
  · intro pp fp cp h
    simp only [PollardColls] at h
    cases hl : pollardLoop pp fp (pollardInit pp) with
    | none => rw [hl] at h; exact absurd h (by simp)
    | some r =>
      rw [hl] at h
      cases r with
      | error e => exact absurd h (by simp [Except.map])
      | ok stF =>
        have hcp : stF.collisions = cp := by simpa [Except.map] using h
        subst hcp
        exact (pollardLoop_inv fp _ _ hl (PInv_init pp)).2.2

/-- Witness for C7: symmetry at a concrete pair and dedup on a trivial
successful run. -/
theorem collision_dedup_spec_witness :
    containColl [] ⟨['0'], ['1']⟩ = containColl [] ⟨['1'], ['0']⟩ ∧
      List.Pairwise (fun c d => ¬collEquiv c d) ([] : List Collision) :=
  ⟨collision_dedup_spec.1 [] ['0'] ['1'],
    collision_dedup_spec.2.1 ⟨0, 8, fun _ => []⟩ 1 [] rfl⟩

/-! ## Claim C5 -/

theorem pollardIter_invalid {p : PParams} (st : PState)
    (hb : p.outBits < MinOut ∨ MaxOut < p.outBits) :
    ∃ st2, pollardIter p st = .ok st2 ∧ st2.collisions = st.collisions := by
  simp only [pollardIter]
  split
  · exact ⟨stallReset p st, rfl, rfl⟩
  · exact ⟨_, processFrom_invalid hb _ _, rfl⟩

/-- Claim C5 is violated by the code: PollardAttack with outputBits
outside [8,24] does not fail fast.  Every chain step fails inside the
coordinator loop with the SHA_xx configuration error, but the loop
discards that error with continue and keeps running (through endless
stall resets), so the run neither returns a result nor propagates any
error, for every amount of fuel. -/
theorem pollard_invalid_bits_diverges (p : PParams) (fuel : Nat)
    (hb : p.outBits < 8 ∨ 24 < p.outBits) (hn : 1 ≤ p.numColls) :
    pollardLoop p fuel (pollardInit p) = none ∧
      ∀ msg, SHA_xx msg p.outBits = .error (strL "Invalid out vector size") := by
  have hb2 : p.outBits < MinOut ∨ MaxOut < p.outBits := hb
  have key : ∀ f (st : PState), st.collisions = [] → pollardLoop p f st = none := by
    intro f
    induction f with
    | zero => intro st hst; rfl
    | succ g ih =>
      intro st hst
      obtain ⟨st2, hig, hcolls⟩ := pollardIter_invalid st hb2
      simp only [pollardLoop]
      rw [if_pos (show st.collisions.length < p.numColls by rw [hst]; simpa using hn), hig]
      exact ih st2 (by rw [hcolls, hst])
  exact ⟨key fuel _ rfl, fun msg => SHA_xx_invalid msg hb2⟩

/-- Witness for C5 at outputBits 7 with one worker and one requested
collision. -/
theorem pollard_invalid_bits_diverges_witness :
    ((7 : Nat) < 8 ∨ (24 : Nat) < 7) ∧ (1 : Nat) ≤ 1 ∧
      (pollardLoop ⟨7, 2, 1, 1, fun _ => 0⟩ 3 (pollardInit ⟨7, 2, 1, 1, fun _ => 0⟩) = none ∧
        ∀ msg, SHA_xx msg 7 = .error (strL "Invalid out vector size")) :=
  ⟨by norm_num, by norm_num,
    pollard_invalid_bits_diverges ⟨7, 2, 1, 1, fun _ => 0⟩ 3 (by norm_num) (by norm_num)⟩

/-! ## Claim C6 -/

theorem nodup_keys_eq {l : List (Str × Chain)} (hnd : (l.map Prod.fst).Nodup)
    {k : Str} {c c2 : Chain} (h1 : (k, c) ∈ l) (h2 : (k, c2) ∈ l) : c = c2 := by
  induction l with
  | nil => simp at h1
  | cons kv t ih =>
    rw [List.map_cons, List.nodup_cons] at hnd
    rcases List.mem_cons.mp h1 with h1 | h1 <;> rcases List.mem_cons.mp h2 with h2 | h2
    · rw [← h2] at h1
      exact (Prod.mk.injEq _ _ _ _ ▸ h1).2
    · exfalso
      apply hnd.1
      have hk : kv.1 = k := by rw [← h1]
      rw [hk]
      simpa using List.mem_map_of_mem Prod.fst h2
    · exfalso
      apply hnd.1
      have hk : kv.1 = k := by rw [← h2]
      rw [hk]
      simpa using List.mem_map_of_mem Prod.fst h1
    · exact ih hnd.2 h1 h2

theorem filter_no_rebind {l : List (Str × Chain)} (hnd : (l.map Prod.fst).Nodup)
    (q : Str × Chain → Bool) (k : Str) (c : Chain) (hmem : (k, c) ∈ l) :
    (k, c) ∈ l.filter q ∨ ∀ c2, (k, c2) ∉ l.filter q := by
  by_cases hkc : (k, c) ∈ l.filter q
  · exact Or.inl hkc
  · refine Or.inr fun c2 hc2 => ?_
    have hc2m := List.mem_of_mem_filter hc2
    have heq : c2 = c := nodup_keys_eq hnd hc2m hmem
    subst heq
    exact hkc hc2

theorem pollardTrace_inv (p : PParams) :
    ∀ n st, pollardTrace p n = .ok st → PInv p st := by
  intro n
  induction n with
  | zero =>
    intro st h
    obtain rfl : pollardInit p = st := by simpa [pollardTrace] using h
    exact PInv_init p
  | succ m ih =>
    intro st h
    simp only [pollardTrace] at h
    split at h
    · exact absurd h (by simp)
    · rename_i stm hm
      exact pollardIter_inv h (ih stm hm)

/-- Claim C6: throughout a PollardAttack run every state value appears at
most once as a key of the distinguished-point registry; a hit on an
already-present key never rebinds it — the stored binding either
survives unchanged or the key is evicted entirely, and one
reconciliation attempt is made with the two chains ordered by step
count, the chain with the larger step count first. -/
theorem pollard_registry_spec (p : PParams) :
    (∀ n st, pollardTrace p n = .ok st → (st.dists.map Prod.fst).Nodup) ∧
    (∀ st i st2, processChain p st i = .ok st2 → (st.dists.map Prod.fst).Nodup →
      ∀ k c, (k, c) ∈ st.dists → (k, c) ∈ st2.dists ∨ ∀ c2, (k, c2) ∉ st2.dists) ∧
    (∀ valc cur : Chain, (orderChains valc cur).2.steps ≤ (orderChains valc cur).1.steps ∧
      (orderChains valc cur = (valc, cur) ∨ orderChains valc cur = (cur, valc))) := by
  refine ⟨?_, ?_, ?_⟩
  · intro n st h
    exact (pollardTrace_inv p n st h).1
  · intro st i st2 h hnd k c hmem
    simp only [processChain] at h
    split at h
    · obtain rfl : st = st2 := by simpa using h
      exact Or.inl hmem
    · rename_i next hcf
      split at h
      · split at h
        · rename_i val hlk
          split at h
          · exact absurd h (by simp)
          · rename_i coll hfe
            obtain rfl : _ = st2 := by exact (by simpa using h : _ = st2)
            exact filter_no_rebind hnd _ k c hmem
        · rename_i hlk
          obtain rfl : _ = st2 := by exact (by simpa using h : _ = st2)
          rw [mapSet_fresh hlk]
          exact Or.inl (List.mem_append_left _ hmem)
      · obtain rfl : _ = st2 := by exact (by simpa using h : _ = st2)
        exact Or.inl hmem
  · intro valc cur
    simp only [orderChains]
    by_cases hs : cur.steps ≤ valc.steps
    · rw [if_pos hs]
      exact ⟨hs, Or.inl rfl⟩
    · rw [if_neg hs]
      exact ⟨by show valc.steps ≤ cur.steps; omega, Or.inr rfl⟩

/-- Witness for C6: registry keys at the initial state of a concrete
run, and the ordering of a concrete chain pair. -/
theorem pollard_registry_spec_witness :
    (((pollardInit ⟨8, 2, 1, 1, fun _ => 0⟩).dists.map Prod.fst).Nodup) ∧
      ((orderChains ⟨['0'], ['0'], 3, 0⟩ ⟨['1'], ['1'], 5, 1⟩).2.steps ≤
        (orderChains ⟨['0'], ['0'], 3, 0⟩ ⟨['1'], ['1'], 5, 1⟩).1.steps) :=
  ⟨(pollard_registry_spec ⟨8, 2, 1, 1, fun _ => 0⟩).1 0 _ rfl,
    ((pollard_registry_spec ⟨8, 2, 1, 1, fun _ => 0⟩).2.2 ⟨['0'], ['0'], 3, 0⟩
      ⟨['1'], ['1'], 5, 1⟩).1⟩

/-! ## Claim C4 -/

theorem seedAt_const {p : PParams} (hor : ∀ n, p.oracle n = p.oracle 0) (a b : Nat) :
    seedAt p a = seedAt p b := by
  simp only [seedAt, hor a, hor b]

/-- With a constant randomness oracle, the inner loop body is oblivious
to the iteration counter and the draw index: only the ridx offset of the
resulting state shifts. -/
theorem processChain_jr (p : PParams) (hor : ∀ n, p.oracle n = p.oracle 0)
    (ch : List Chain) (d : List (Str × Chain)) (cl : List Collision)
    (i jb rb j2 r2 : Nat) :
    processChain p (PState.mk ch d cl j2 r2) i =
      (processChain p (PState.mk ch d cl jb rb) i).map
        (fun st2 => ⟨st2.chains, st2.dists, st2.collisions, j2, r2 + (st2.ridx - rb)⟩) := by
  simp only [processChain]
  split
  · simp [Except.map]
  · split
    · split
      · split
        · simp [Except.map]
        · simp only [Except.map, resetChain]
          rw [seedAt_const hor r2 rb, seedAt_const hor (r2 + 1) (rb + 1)]
          have harith : r2 + (rb + 1 + 1 - rb) = r2 + 1 + 1 := by omega
          rw [harith]
      · simp [Except.map]
    · simp [Except.map]

theorem P4_oracle_const : ∀ n, P4.oracle n = P4.oracle 0 := fun _ => rfl

set_option maxRecDepth 100000 in
theorem baseChain0 :
    processChain P4 (PState.mk freshPair [] [c00] 0 0) 0 =
      .ok ⟨[⟨zeros8, vz, 1, 0⟩, ⟨zeros8, zeros8, 0, 1⟩],
        [(vz, Chain.mk zeros8 vz 1 0)], [c00], 0, 0⟩ := rfl

set_option maxRecDepth 100000 in
theorem baseChain0e :
    processChain P4 (PState.mk freshPair [] [] 0 0) 0 =
      .ok ⟨[⟨zeros8, vz, 1, 0⟩, ⟨zeros8, zeros8, 0, 1⟩],
        [(vz, Chain.mk zeros8 vz 1 0)], [], 0, 0⟩ := rfl

set_option maxRecDepth 100000 in
theorem baseChain1 :
    processChain P4 (PState.mk [⟨zeros8, vz, 1, 0⟩, ⟨zeros8, zeros8, 0, 1⟩]
        [(vz, Chain.mk zeros8 vz 1 0)] [c00] 0 0) 1 =
      .ok ⟨freshPair, [], [c00], 0, 0 + 1 + 1⟩ := rfl

set_option maxRecDepth 100000 in
theorem baseChain1e :
    processChain P4 (PState.mk [⟨zeros8, vz, 1, 0⟩, ⟨zeros8, zeros8, 0, 1⟩]
        [(vz, Chain.mk zeros8 vz 1 0)] [] 0 0) 1 =
      .ok ⟨freshPair, [], [c00], 0, 0 + 1 + 1⟩ := rfl

theorem stepChain0 (j r : Nat) :
    processChain P4 (PState.mk freshPair [] [c00] j r) 0 =
      .ok ⟨[⟨zeros8, vz, 1, 0⟩, ⟨zeros8, zeros8, 0, 1⟩],
        [(vz, Chain.mk zeros8 vz 1 0)], [c00], j, r⟩ := by
  have h := processChain_jr P4 P4_oracle_const freshPair [] [c00] 0 0 0 j r
  rw [baseChain0] at h
  simpa [Except.map] using h

theorem stepChain0e (j r : Nat) :
    processChain P4 (PState.mk freshPair [] [] j r) 0 =
      .ok ⟨[⟨zeros8, vz, 1, 0⟩, ⟨zeros8, zeros8, 0, 1⟩],
        [(vz, Chain.mk zeros8 vz 1 0)], [], j, r⟩ := by
  have h := processChain_jr P4 P4_oracle_const freshPair [] [] 0 0 0 j r
  rw [baseChain0e] at h
  simpa [Except.map] using h

theorem stepChain1 (j r : Nat) :
    processChain P4 (PState.mk [⟨zeros8, vz, 1, 0⟩, ⟨zeros8, zeros8, 0, 1⟩]
        [(vz, Chain.mk zeros8 vz 1 0)] [c00] j r) 1 =
      .ok ⟨freshPair, [], [c00], j, r + 2⟩ := by
  have h := processChain_jr P4 P4_oracle_const
    [⟨zeros8, vz, 1, 0⟩, ⟨zeros8, zeros8, 0, 1⟩] [(vz, Chain.mk zeros8 vz 1 0)] [c00] 1 0 0 j r
  rw [baseChain1] at h
  simpa [Except.map] using h

theorem stepChain1e (j r : Nat) :
    processChain P4 (PState.mk [⟨zeros8, vz, 1, 0⟩, ⟨zeros8, zeros8, 0, 1⟩]
        [(vz, Chain.mk zeros8 vz 1 0)] [] j r) 1 =
      .ok ⟨freshPair, [], [c00], j, r + 2⟩ := by
  have h := processChain_jr P4 P4_oracle_const
    [⟨zeros8, vz, 1, 0⟩, ⟨zeros8, zeros8, 0, 1⟩] [(vz, Chain.mk zeros8 vz 1 0)] [] 1 0 0 j r
  rw [baseChain1e] at h
  simpa [Except.map] using h

theorem processFrom_cons (p : PParams) (i : Nat) (rest : List Nat) (st : PState) :
    processFrom p (i :: rest) st =
      match processChain p st i with
      | .error e => .error e
      | .ok st2 => processFrom p rest st2 := rfl

theorem pollardRound_S4 (j r : Nat) :
    pollardRound P4 (PState.mk freshPair [] [c00] j r) = .ok ⟨freshPair, [], [c00], j, r + 2⟩ := by
  have e1 : pollardRound P4 (PState.mk freshPair [] [c00] j r) =
      processFrom P4 [0, 1] (PState.mk freshPair [] [c00] j r) := by
    have hr : List.range P4.numWorkers = [0, 1] := rfl
    simp only [pollardRound, hr]
  rw [e1, processFrom_cons, stepChain0 j r]
  show processFrom P4 [1] (PState.mk [⟨zeros8, vz, 1, 0⟩, ⟨zeros8, zeros8, 0, 1⟩]
      [(vz, Chain.mk zeros8 vz 1 0)] [c00] j r) = _
  rw [processFrom_cons, stepChain1 j r]
  show processFrom P4 [] (PState.mk freshPair [] [c00] j (r + 2)) = _
  rfl

theorem pollardRound_init (j r : Nat) :
    pollardRound P4 (PState.mk freshPair [] [] j r) = .ok ⟨freshPair, [], [c00], j, r + 2⟩ := by
  have e1 : pollardRound P4 (PState.mk freshPair [] [] j r) =
      processFrom P4 [0, 1] (PState.mk freshPair [] [] j r) := by
    have hr : List.range P4.numWorkers = [0, 1] := rfl
    simp only [pollardRound, hr]
  rw [e1, processFrom_cons, stepChain0e j r]
  show processFrom P4 [1] (PState.mk [⟨zeros8, vz, 1, 0⟩, ⟨zeros8, zeros8, 0, 1⟩]
      [(vz, Chain.mk zeros8 vz 1 0)] [] j r) = _
  rw [processFrom_cons, stepChain1e j r]
  show processFrom P4 [] (PState.mk freshPair [] [c00] j (r + 2)) = _
  rfl

theorem pollardIter_S4 (k : Nat) (hk : k < 100000) :
    pollardIter P4 (S4 k) = .ok (S4 (k + 1)) := by
  have hstall : stallCond (S4 k) = false := by
    apply decide_eq_false
    show ¬(100000 ≤ (S4 k).iterations)
    simp only [S4]
    omega
  rw [pollardIter, hstall]
  simp only [Bool.false_eq_true, if_false]
  have hupd : ({ S4 k with iterations := (S4 k).iterations + 1 } : PState) =
      PState.mk freshPair [] [c00] (k + 1) (2 + 2 * k) := rfl
  rw [hupd, pollardRound_S4]
  show _ = Except.ok (PState.mk freshPair [] [c00] (k + 1) (2 + 2 * (k + 1)))
  have harith : 2 + 2 * k + 2 = 2 + 2 * (k + 1) := by omega
  rw [harith]

theorem pollardIter_init : pollardIter P4 (pollardInit P4) = .ok (S4 1) := by
  have hstall : stallCond (pollardInit P4) = false := rfl
  rw [pollardIter, hstall]
  simp only [Bool.false_eq_true, if_false]
  have hupd : ({ pollardInit P4 with iterations := (pollardInit P4).iterations + 1 } : PState) =
      PState.mk freshPair [] [] 1 2 := rfl
  rw [hupd, pollardRound_init]
  rfl

theorem pollardTrace_S4 : ∀ k, 1 ≤ k → k ≤ 100000 → pollardTrace P4 k = .ok (S4 k) := by
  intro k
  induction k with
  | zero => intro h; omega
  | succ m ih =>
    intro _ hle
    rcases Nat.eq_zero_or_pos m with rfl | hm
    · simp only [pollardTrace]
      exact pollardIter_init
    · have ht := ih hm (by omega)
      simp only [pollardTrace]
      rw [ht]
      exact pollardIter_S4 m (by omega)

/-- Claim C4 counterexample: in the concrete P4 run a new collision is
recorded during the very first round (the list grows from empty to one
entry), the round counter then climbs to the 10e4 budget with no further
stall reset (it equals the round number throughout), and at the next
round the stall branch fires — full registry clear, all chains reseeded,
counter zeroed — even though a new collision was recorded inside this
very budget window. -/
theorem pollard_stall_after_collision :
    (pollardTrace P4 0).map (fun st => st.collisions.length) = .ok 0 ∧
    (pollardTrace P4 1).map (fun st => st.collisions.length) = .ok 1 ∧
    (pollardTrace P4 100000).map (fun st => (st.iterations, st.collisions.length)) =
      .ok (100000, 1) ∧
    (pollardTrace P4 100000).map (fun st => stallCond st) = .ok true ∧
    (pollardTrace P4 100001).map
      (fun st => (st.iterations, st.dists.length, st.collisions.length)) = .ok (0, 0, 1) := by
  have h1 := pollardTrace_S4 1 (by norm_num) (by norm_num)
  have h5 := pollardTrace_S4 100000 (by norm_num) (by norm_num)
  have hstall : stallCond (S4 100000) = true := by
    apply decide_eq_true
    show 100000 ≤ (S4 100000).iterations
    simp [S4]
  have hgen : ∀ n st0, pollardTrace P4 n = .ok st0 → stallCond st0 = true →
      pollardTrace P4 (n + 1) = .ok (stallReset P4 st0) := by
    intro n st0 hn hst
    simp only [pollardTrace]
    rw [hn]
    show pollardIter P4 st0 = _
    rw [pollardIter, hst]
    simp
  have h6 : pollardTrace P4 100001 = .ok (stallReset P4 (S4 100000)) :=
    hgen 100000 (S4 100000) h5 hstall
  refine ⟨rfl, ?_, ?_, ?_, ?_⟩
  · rw [h1]; rfl
  · rw [h5]; rfl
  · rw [h5]
    simp only [Except.map, hstall]
  · rw [h6]; rfl

/-- Claim C4 amended: the stall clear-and-reset fires exactly when the
round counter reaches the fixed budget of 10e4 rounds; the counter is
advanced by every round and reset only by a stall event — never by a
collision being found — so the clear-and-reset can fire inside a budget
window during which a new collision was recorded (established separately
by the counterexample).  When it fires, the whole registry is cleared,
every chain is freshly reseeded, the counter returns to zero and the
collision list is kept. -/
theorem pollard_stall_amended (p : PParams) (st st2 : PState)
    (h : pollardIter p st = .ok st2) :
    (100000 ≤ st.iterations →
      st2 = stallReset p st ∧ st2.dists = [] ∧ st2.iterations = 0 ∧
        st2.collisions = st.collisions ∧ st2.chains = chainsFrom p st.ridx) ∧
    (st.iterations < 100000 → st2.iterations = st.iterations + 1) := by
  constructor
  · intro hge
    have hc : stallCond st = true := decide_eq_true hge
    rw [pollardIter, hc] at h
    have h2 : stallReset p st = st2 := by simpa using h
    rw [← h2]
    exact ⟨rfl, rfl, rfl, rfl, rfl⟩
  · intro hlt
    have hc : stallCond st = false := decide_eq_false (by omega)
    rw [pollardIter, hc] at h
    simp only [Bool.false_eq_true, if_false] at h
    rw [processFrom_iterations _ _ _ h]

/-- Witness for the amended C4 on a zero-worker run: one round advances
the counter from 0 to 1. -/
theorem pollard_stall_amended_witness :
    (PState.mk [] [] [] 1 0).iterations =
      (pollardInit ⟨8, 2, 1, 0, fun _ => 0⟩).iterations + 1 :=
  (pollard_stall_amended ⟨8, 2, 1, 0, fun _ => 0⟩ (pollardInit ⟨8, 2, 1, 0, fun _ => 0⟩)
    (PState.mk [] [] [] 1 0) rfl).2 (by decide)

end Crypto


